import Mathlib

/-!
Shallow embedding of `mtl_model_finetuning.ipynb`: a multi-task
sentence-transformer fine-tuning script with a shared encoder and two
classification heads (topic on AG News, sentiment on SST-2).

Numeric values are modelled over `ℚ`; tensors over lists.  The pretrained
backbone and the tokenizer are external library components, so they appear
as function parameters; every piece of logic written in the notebook itself
(filtering, pooling, the model wiring, the loop schedules, metrics,
prediction) is translated concretely.
-/

namespace MTL

/-- The two tasks of the script: the string literals of
`for task in ["topic", "sentiment"]`. -/
inductive Task where
  | topic
  | sentiment
deriving DecidableEq, Repr

/-- A Python value as it can occur in a dataset row: `example.get(key, None)`
returns a string, an int, a bool, a float, `None` (also when the key is
missing), or some other object. -/
inductive PyVal where
  | pyStr (s : String)
  | pyInt (n : ℤ)
  | pyBool (b : Bool)
  | pyFloat
  | pyNone
  | pyOther
deriving DecidableEq, Repr

/-- A dataset row as `_is_real` sees it: the value found under the text key
and the value found under `"label"` (`PyVal.pyNone` when the key is absent,
matching `example.get(..., None)`). -/
structure DataRow where
  text : PyVal
  label : PyVal
deriving DecidableEq, Repr

/-- `isinstance(lbl, (int, bool))` from `_is_real`. -/
def isIntOrBool : PyVal → Bool
  | PyVal.pyInt _ => true
  | PyVal.pyBool _ => true
  | _ => false

/-- A character Python `str.strip()` removes: the whitespace characters. -/
def pyIsSpace (c : Char) : Bool :=
  c = ' ' || c = '\t' || c = '\n' || c = '\r' || c = Char.ofNat 11 || c = Char.ofNat 12

/-- `txt.strip() == ""`: stripping surrounding whitespace leaves nothing
exactly when every character is whitespace. -/
def stripIsEmpty (s : String) : Bool := s.data.all pyIsSpace

/-- `_is_real` from the notebook: keep a row iff the text value is a string
whose strip is non-empty and the label value is an int or bool. -/
def _is_real (ex : DataRow) : Bool :=
  match ex.text with
  | PyVal.pyStr s => if stripIsEmpty s then false else isIntOrBool ex.label
  | _ => false

/-- The property the spec attributes to retained labels: an integer in
`[0, numClasses)`, i.e. a valid class index for a task with `numClasses`
classes. -/
def labelIsValidClassIndex (l : PyVal) (numClasses : ℕ) : Prop :=
  ∃ n : ℤ, l = PyVal.pyInt n ∧ 0 ≤ n ∧ n < numClasses

instance (l : PyVal) (numClasses : ℕ) : Decidable (labelIsValidClassIndex l numClasses) := by
  unfold labelIsValidClassIndex
  cases l with
  | pyInt n => exact decidable_of_iff (0 ≤ n ∧ n < numClasses) (by simp)
  | pyStr s => exact Decidable.isFalse (by simp)
  | pyBool b => exact Decidable.isFalse (by simp)
  | pyFloat => exact Decidable.isFalse (by simp)
  | pyNone => exact Decidable.isFalse (by simp)
  | pyOther => exact Decidable.isFalse (by simp)

/-- Dot product of two rational vectors. -/
def dotQ (a b : List ℚ) : ℚ := ((a.zip b).map (fun p => p.1 * p.2)).sum

/-- An `nn.Linear` layer: one weight row per output feature, plus a bias
entry per output feature. -/
structure LinearLayer where
  weight : List (List ℚ)
  bias : List ℚ

/-- Forward pass of `nn.Linear`. -/
def linForward (l : LinearLayer) (x : List ℚ) : List ℚ :=
  (l.weight.zip l.bias).map (fun p => dotQ p.1 x + p.2)

/-- `nn.ReLU` applied element-wise. -/
def reluVec (v : List ℚ) : List ℚ := v.map (fun x => max x 0)

/-- Coordinate `j` of `(hidden * mask).sum(1)` for one batch row: the sum
over token positions `t` of `hidden[t][j] * mask[t]` (the broadcast of
`mask.unsqueeze(-1)` multiplies every coordinate of position `t` by
`mask[t]`). -/
def dotCol (hidden : List (List ℚ)) (mask : List ℚ) (j : ℕ) : ℚ :=
  ((hidden.zip mask).map (fun p => p.1.getD j 0 * p.2)).sum

/-- `mask.sum(1)` for one batch row: the divisor of the mean pooling. -/
def maskSum (mask : List ℚ) : ℚ := mask.sum

/-- `emb = (hidden * mask).sum(1) / mask.sum(1)` from
`SentenceEncoder.forward`, coordinate by coordinate over the hidden width
`d`. -/
def meanPool (hidden : List (List ℚ)) (mask : List ℚ) (d : ℕ) : List ℚ :=
  (List.range d).map (fun j => dotCol hidden mask j / maskSum mask)

/-- `SentenceEncoder`: the pretrained backbone is an external library
component, so it appears as a function field mapping input ids and
attention mask to the per-token hidden states (`out.last_hidden_state`,
one row per token position, each of width `hiddenDim`); `proj` is the
`nn.Linear(hidden, PROJ_DIM)` of `self.proj`, followed by `nn.ReLU`. -/
structure SentenceEncoder where
  backbone : List ℤ → List ℚ → List (List ℚ)
  hiddenDim : ℕ
  proj : LinearLayer

/-- The pooled sentence vector computed by `SentenceEncoder.forward`
just before `self.proj` is applied. -/
def encoderPooled (enc : SentenceEncoder) (input_ids : List ℤ)
    (attention_mask : List ℚ) : List ℚ :=
  meanPool (enc.backbone input_ids attention_mask) attention_mask enc.hiddenDim

/-- `SentenceEncoder.forward`: mean pooling, projection, ReLU. -/
def encoderForward (enc : SentenceEncoder) (input_ids : List ℤ)
    (attention_mask : List ℚ) : List ℚ :=
  reluVec (linForward enc.proj (encoderPooled enc input_ids attention_mask))

/-- `MultiTaskModel`: one shared `SentenceEncoder` plus the task heads of
`self.heads = nn.ModuleDict({"topic": ..., "sentiment": ...})`. -/
structure MultiTaskModel where
  encoder : SentenceEncoder
  topicHead : LinearLayer
  sentimentHead : LinearLayer

/-- The lookup `self.heads[task]`. -/
def heads (m : MultiTaskModel) : Task → LinearLayer
  | Task.topic => m.topicHead
  | Task.sentiment => m.sentimentHead

/-- `MultiTaskModel.forward`: `emb = self.encoder(...)`, then
`self.heads[task](emb)`. -/
def mtForward (m : MultiTaskModel) (input_ids : List ℤ)
    (attention_mask : List ℚ) (task : Task) : List ℚ :=
  linForward (heads m task) (encoderForward m.encoder input_ids attention_mask)

/-- The maximum entry of a list of rationals (used on non-empty logits). -/
def maxVal : List ℚ → ℚ
  | [] => 0
  | [x] => x
  | x :: y :: tl => max x (maxVal (y :: tl))

/-- `logits.argmax(-1)` for one row: the first index holding the maximal
entry. -/
def argmaxIdx (l : List ℚ) : ℕ := l.findIdx (fun x => decide (x = maxVal l))

/-- `topic_names` hardcoded in `prepare_loaders`. -/
def topic_names : List String := ["World", "Sports", "Business", "Sci/Tech"]

/-- `sent_names` hardcoded in `prepare_loaders`. -/
def sent_names : List String := ["Negative", "Positive"]

/-- `n_topic = len(set(ag_tr["labels"]))` (and likewise `n_sent`): the head
size inferred from the data as the number of distinct training labels. -/
def inferredNumClasses (labels : List ℤ) : ℕ := labels.dedup.length

/-- The model as returned by `main_function`: the `MultiTaskModel` plus the
label-name lists stored on it
(`model.topic_label_names = t_names`, `model.sentiment_label_names = s_names`). -/
structure TrainedModel where
  core : MultiTaskModel
  topic_label_names : List String
  sentiment_label_names : List String

/-- One dict of the list returned by `predict_sentences`. -/
structure Prediction where
  sentence : String
  topic : String
  sentiment : String
deriving DecidableEq, Repr

/-- `predict_sentences`.  The tokenizer is an external library component and
is passed as the function `tok`, mapping the batch of sentences to the
row-aligned `(input_ids, attention_mask)` pairs of the padded batch.
Batched tensor forwards act row-wise, so row `i`'s logits are the forward
of row `i`'s ids and mask; `zip(sentences, topic_ids, sent_ids)` is the
nested zip below.  List indexing `model.topic_label_names[t_id]` is
modelled with `getD` (claim C9 settles when the index is in range). -/
def predict_sentences (tok : List String → List (List ℤ × List ℚ))
    (m : TrainedModel) (sentences : List String) : List Prediction :=
  (sentences.zip
      (((tok sentences).map
          (fun t => argmaxIdx (mtForward m.core t.1 t.2 Task.topic))).zip
       ((tok sentences).map
          (fun t => argmaxIdx (mtForward m.core t.1 t.2 Task.sentiment))))).map
    (fun p =>
      { sentence := p.1
        topic := m.topic_label_names.getD p.2.1 ""
        sentiment := m.sentiment_label_names.getD p.2.2 "" })

/-- One scheduled training batch of `train_func`: its epoch, its task, and
the batch's position within its task's loader. -/
structure TrainStep where
  epoch : ℕ
  task : Task
  batchIdx : ℕ
deriving DecidableEq, Repr

instance : Inhabited TrainStep := ⟨⟨0, Task.topic, 0⟩⟩

/-- The batches of `for batch in loaders[f"train_{task}"]` in epoch `e`, for
a loader yielding `n` batches. -/
def taskBatches (e : ℕ) (t : Task) (n : ℕ) : List TrainStep :=
  (List.range n).map (fun i => ⟨e, t, i⟩)

/-- One epoch of `train_func`: `for task in ["topic", "sentiment"]` runs the
whole topic loader first, then the whole sentiment loader. -/
def epochSchedule (e nTopic nSent : ℕ) : List TrainStep :=
  taskBatches e Task.topic nTopic ++ taskBatches e Task.sentiment nSent

/-- The full batch schedule of `train_func` over
`for epoch in range(EPOCHS)`, with `nTopic = len(loaders["train_topic"])`
and `nSent = len(loaders["train_sentiment"])` batches per epoch. -/
def trainSchedule (epochs nTopic nSent : ℕ) : List TrainStep :=
  ((List.range epochs).map (fun e => epochSchedule e nTopic nSent)).flatten

/-- The primitive operations a batch iteration performs. -/
inductive TrainEvent where
  | zeroGrad
  | forwardPass (t : Task)
  | backward
  | optimStep
  | schedStep
deriving DecidableEq, Repr

/-- The loop body of `train_func` for one batch: `optim.zero_grad()`, the
model forward, `loss.backward()`, `optim.step()`, `sched.step()`. -/
def stepEvents (s : TrainStep) : List TrainEvent :=
  [TrainEvent.zeroGrad, TrainEvent.forwardPass s.task, TrainEvent.backward,
   TrainEvent.optimStep, TrainEvent.schedStep]

/-- All events of a full `train_func` run. -/
def trainEvents (epochs nTopic nSent : ℕ) : List TrainEvent :=
  ((trainSchedule epochs nTopic nSent).map stepEvents).flatten

/-- How many times event `e` occurs in `l`. -/
def countEvent (e : TrainEvent) (l : List TrainEvent) : ℕ :=
  l.countP (fun x => decide (x = e))

/-- `steps = EPOCHS * sum(len(loaders[k]) for k in [...])`: the
`num_training_steps` budget the linear scheduler is constructed with. -/
def num_training_steps (epochs nTopic nSent : ℕ) : ℕ :=
  epochs * (nTopic + nSent)

/-- `num_warmup_steps = int(0.1 * steps)`.  Integer truncation of a tenth is
modelled by exact natural division by 10 (the float expression agrees with
it at every step count this script can produce). -/
def num_warmup_steps (epochs nTopic nSent : ℕ) : ℕ :=
  num_training_steps epochs nTopic nSent / 10

/-- The parameter groups of the model, as `model.parameters()` yields them:
the encoder's backbone, the encoder's projection, and the two heads. -/
inductive ParamGroup where
  | encoderBackbone
  | encoderProj
  | topicHead
  | sentimentHead
deriving DecidableEq, Repr

/-- `model.parameters()` for `MultiTaskModel`: every submodule's parameters,
the shared encoder's included. -/
def modelParameters : List ParamGroup :=
  [ParamGroup.encoderBackbone, ParamGroup.encoderProj,
   ParamGroup.topicHead, ParamGroup.sentimentHead]

/-- The parameter set of `optim = AdamW(model.parameters(), lr=LR)`: the one
optimizer steps every model parameter, whichever task produced the loss. -/
def optimizerParams : List ParamGroup := modelParameters

/-- The two evaluation stages accepted by `evaluate`. -/
inductive Stage where
  | val
  | test
deriving DecidableEq, Repr

/-- All events of one `evaluate(model, loaders, stage, ...)` call: for each
task (topic, then sentiment), one model forward per batch of
`loaders[f"{stage}_{task}"]`, inside `torch.no_grad()` — no backward, no
optimizer step, no scheduler step.  `loaderLen stage task` is the number of
batches of that loader. -/
def evalEvents (stage : Stage) (loaderLen : Stage → Task → ℕ) : List TrainEvent :=
  (((List.range (loaderLen stage Task.topic)).map
      (fun _ => [TrainEvent.forwardPass Task.topic])) ++
   ((List.range (loaderLen stage Task.sentiment)).map
      (fun _ => [TrainEvent.forwardPass Task.sentiment]))).flatten

/-- The mutable parameter state of the model. -/
structure ParamState where
  encoderParams : List ℚ
  topicHeadParams : List ℚ
  sentimentHeadParams : List ℚ
deriving DecidableEq, Repr

/-- How one event acts on the parameter state: only `optim.step()` writes
parameters (`upd` being whatever update AdamW applies); forwards,
`zero_grad`, `backward` and `sched.step` leave them unchanged. -/
def applyEvent (upd : ParamState → ParamState) (s : ParamState) :
    TrainEvent → ParamState
  | TrainEvent.optimStep => upd s
  | _ => s

/-- Run a list of events over the parameter state. -/
def runEvents (upd : ParamState → ParamState) (s : ParamState)
    (evs : List TrainEvent) : ParamState :=
  evs.foldl (applyEvent upd) s

/-- Division with sklearn's `zero_division=0` convention: `0` when the
denominator is `0`. -/
def safeDiv (a b : ℚ) : ℚ := if b = 0 then 0 else a / b

/-- Count the aligned `(y_true[i], y_pred[i])` pairs satisfying `p`. -/
def countPairs (y_true y_pred : List ℕ) (p : ℕ → ℕ → Bool) : ℕ :=
  ((y_true.zip y_pred).filter (fun q => p q.1 q.2)).length

/-- True positives of class `c`. -/
def tpCount (y_true y_pred : List ℕ) (c : ℕ) : ℕ :=
  countPairs y_true y_pred (fun a b => decide (a = c) && decide (b = c))

/-- False positives of class `c`. -/
def fpCount (y_true y_pred : List ℕ) (c : ℕ) : ℕ :=
  countPairs y_true y_pred (fun a b => !(decide (a = c)) && decide (b = c))

/-- False negatives of class `c`. -/
def fnCount (y_true y_pred : List ℕ) (c : ℕ) : ℕ :=
  countPairs y_true y_pred (fun a b => decide (a = c) && !(decide (b = c)))

/-- Per-class precision `TP / (TP + FP)`, with `zero_division=0`. -/
def precClass (y_true y_pred : List ℕ) (c : ℕ) : ℚ :=
  safeDiv (tpCount y_true y_pred c) (tpCount y_true y_pred c + fpCount y_true y_pred c)

/-- Per-class recall `TP / (TP + FN)`, with `zero_division=0`. -/
def recClass (y_true y_pred : List ℕ) (c : ℕ) : ℚ :=
  safeDiv (tpCount y_true y_pred c) (tpCount y_true y_pred c + fnCount y_true y_pred c)

/-- Per-class F1 `2 TP / (2 TP + FP + FN)`, with `zero_division=0` (equal to
the harmonic mean of precision and recall wherever that is defined). -/
def f1Class (y_true y_pred : List ℕ) (c : ℕ) : ℚ :=
  safeDiv (2 * tpCount y_true y_pred c)
    (2 * tpCount y_true y_pred c + fpCount y_true y_pred c + fnCount y_true y_pred c)

/-- The classes a macro average runs over: the distinct labels occurring in
`y_true` or `y_pred` (sklearn's default label set). -/
def classesOf (y_true y_pred : List ℕ) : List ℕ := (y_true ++ y_pred).dedup

/-- Unweighted mean of a list of rationals. -/
def listMean (l : List ℚ) : ℚ := safeDiv l.sum l.length

/-- The dict returned by `macro_metrics` (field `recScore` is the `"rec"`
key). -/
structure Metrics where
  acc : ℚ
  prec : ℚ
  recScore : ℚ
  f1 : ℚ
deriving DecidableEq, Repr

/-- `macro_metrics`: plain accuracy plus macro-averaged precision, recall
and F1 with `zero_division=0` — the documented behaviour of the
`accuracy_score` / `precision_score` / `recall_score` / `f1_score`
calls the notebook makes. -/
def macro_metrics (y_true y_pred : List ℕ) : Metrics :=
  { acc := safeDiv (countPairs y_true y_pred (fun a b => decide (a = b))) y_true.length
    prec := listMean ((classesOf y_true y_pred).map (precClass y_true y_pred))
    recScore := listMean ((classesOf y_true y_pred).map (recClass y_true y_pred))
    f1 := listMean ((classesOf y_true y_pred).map (f1Class y_true y_pred)) }

/-- The task of each scheduled batch, in schedule order. -/
def tasksOf (l : List TrainStep) : List Task := l.map (fun s => s.task)

/-- The schedule `tr` runs every topic batch before any sentiment batch:
its task sequence is all its topic entries followed by all its sentiment
entries. -/
def topicCompletedFirst (tr : List TrainStep) : Prop :=
  tasksOf tr = (tasksOf tr).filter (fun t => decide (t = Task.topic))
      ++ (tasksOf tr).filter (fun t => decide (t = Task.sentiment))

instance (tr : List TrainStep) : Decidable (topicCompletedFirst tr) := by
  unfold topicCompletedFirst
  infer_instance

/-- Summing a list mapped to a constant counts the list's length. -/
lemma sum_map_eq_length_mul {α : Type} (l : List α) (f : α → ℕ) (c : ℕ)
    (h : ∀ a ∈ l, f a = c) : (l.map f).sum = l.length * c := by
  induction l with
  | nil => simp
  | cons a tl ih =>
    simp only [List.map_cons, List.sum_cons, List.length_cons]
    rw [h a (by simp), ih (fun x hx => h x (by simp [hx]))]
    ring

/-- `trainSchedule` has one entry per batch per epoch. -/
lemma length_trainSchedule (epochs nTopic nSent : ℕ) :
    (trainSchedule epochs nTopic nSent).length = epochs * (nTopic + nSent) := by
  unfold trainSchedule
  rw [List.length_flatten, List.map_map]
  rw [sum_map_eq_length_mul _ _ (nTopic + nSent)
    (fun e _ => by simp [epochSchedule, taskBatches])]
  simp

/-- Counting one event over the flattened per-step event lists. -/
lemma countEvent_flatten_map {α : Type} (e : TrainEvent) (f : α → List TrainEvent)
    (l : List α) (c : ℕ) (h : ∀ a ∈ l, countEvent e (f a) = c) :
    countEvent e ((l.map f).flatten) = l.length * c := by
  unfold countEvent at *
  rw [List.countP_flatten, List.map_map]
  exact sum_map_eq_length_mul _ _ c h

/-- A row the filter keeps although its label is no class index. -/
def invalidLabelRow : DataRow := ⟨PyVal.pyStr "hello", PyVal.pyInt 99⟩

/-- C4, counterexample: `_is_real` keeps a row whose label `99` is not a
valid class index for either task (4 topic classes, 2 sentiment classes) —
the filter checks only that the label is an int or bool, not its range. -/
theorem is_real_keeps_invalid_label :
    _is_real invalidLabelRow = true ∧
    ¬ labelIsValidClassIndex invalidLabelRow.label topic_names.length ∧
    ¬ labelIsValidClassIndex invalidLabelRow.label sent_names.length := by
  decide

/-- C4, amended: `_is_real` keeps a row exactly when its text value is a
string whose strip is non-empty and its label value is an int or a bool;
rows with a missing or non-integer label are removed, and no check against
the number of classes is made. -/
theorem is_real_iff (ex : DataRow) :
    _is_real ex = true ↔
      ∃ s, ex.text = PyVal.pyStr s ∧ stripIsEmpty s = false ∧
        ((∃ n, ex.label = PyVal.pyInt n) ∨ (∃ b, ex.label = PyVal.pyBool b)) := by
  obtain ⟨t, l⟩ := ex
  cases t <;> cases l <;> simp [_is_real, isIntOrBool]

/-- C6: `MultiTaskModel.forward` is the task's linear head applied to the
output of the one shared encoder `m.encoder` — the same encoder with the
same parameters for both tasks, so two tasks with equal heads produce equal
outputs. -/
theorem mtForward_shared_encoder (m : MultiTaskModel) (input_ids : List ℤ)
    (attention_mask : List ℚ) :
    mtForward m input_ids attention_mask Task.topic
        = linForward m.topicHead (encoderForward m.encoder input_ids attention_mask) ∧
    mtForward m input_ids attention_mask Task.sentiment
        = linForward m.sentimentHead (encoderForward m.encoder input_ids attention_mask) ∧
    ∀ t₁ t₂ : Task, heads m t₁ = heads m t₂ →
      mtForward m input_ids attention_mask t₁ = mtForward m input_ids attention_mask t₂ := by
  refine ⟨rfl, rfl, fun t₁ t₂ h => ?_⟩
  unfold mtForward
  rw [h]

/-- C7: over a full run the optimizer and the scheduler are each stepped
exactly once per training batch, so their step totals both equal
`EPOCHS * (len(train_topic) + len(train_sentiment))` — exactly the
`num_training_steps` budget the linear scheduler is constructed with, a
tenth of which is the warmup budget. -/
theorem sched_steps_match_budget (epochs nTopic nSent : ℕ) :
    countEvent TrainEvent.schedStep (trainEvents epochs nTopic nSent)
        = num_training_steps epochs nTopic nSent ∧
    countEvent TrainEvent.optimStep (trainEvents epochs nTopic nSent)
        = num_training_steps epochs nTopic nSent ∧
    (∀ s : TrainStep, countEvent TrainEvent.schedStep (stepEvents s) = 1 ∧
        countEvent TrainEvent.optimStep (stepEvents s) = 1) ∧
    num_training_steps epochs nTopic nSent = epochs * (nTopic + nSent) ∧
    num_warmup_steps epochs nTopic nSent
        = num_training_steps epochs nTopic nSent / 10 := by
  refine ⟨?_, ?_, ?_, rfl, rfl⟩
  · unfold trainEvents
    rw [countEvent_flatten_map TrainEvent.schedStep stepEvents
        (trainSchedule epochs nTopic nSent) 1 (fun s _ => rfl),
      length_trainSchedule]
    simp [num_training_steps]
  · unfold trainEvents
    rw [countEvent_flatten_map TrainEvent.optimStep stepEvents
        (trainSchedule epochs nTopic nSent) 1 (fun s _ => rfl),
      length_trainSchedule]
    simp [num_training_steps]
  · intro s
    exact ⟨rfl, rfl⟩

/-- C1, counterexample: with two batches per task, an epoch of the schedule
runs both topic batches to completion before any sentiment batch — the loop
alternates at the task level within an epoch, not at the minibatch level. -/
theorem epoch_schedule_topic_completed_first :
    topicCompletedFirst (epochSchedule 0 2 2) ∧
    (∃ s ∈ epochSchedule 0 2 2, s.task = Task.topic) ∧
    (∃ s ∈ epochSchedule 0 2 2, s.task = Task.sentiment) ∧
    tasksOf (epochSchedule 0 2 2)
      = [Task.topic, Task.topic, Task.sentiment, Task.sentiment] := by
  decide

/-- C1, amended: in every epoch the loop processes minibatches of both
tasks — all the topic loader's batches first, then all the sentiment
loader's batches — and every batch performs one step of the single
optimizer that was built over all of `model.parameters()`, the shared
encoder's parameters included. -/
theorem train_loop_epoch_structure (epochs nTopic nSent e : ℕ)
    (_he : e < epochs) (hT : 0 < nTopic) (hS : 0 < nSent) :
    (∃ s ∈ epochSchedule e nTopic nSent, s.task = Task.topic) ∧
    (∃ s ∈ epochSchedule e nTopic nSent, s.task = Task.sentiment) ∧
    epochSchedule e nTopic nSent
      = taskBatches e Task.topic nTopic ++ taskBatches e Task.sentiment nSent ∧
    trainSchedule epochs nTopic nSent
      = ((List.range epochs).map (fun i => epochSchedule i nTopic nSent)).flatten ∧
    (∀ s : TrainStep, countEvent TrainEvent.optimStep (stepEvents s) = 1) ∧
    ParamGroup.encoderBackbone ∈ optimizerParams ∧
    ParamGroup.encoderProj ∈ optimizerParams := by
  refine ⟨⟨⟨e, Task.topic, 0⟩, ?_, rfl⟩, ⟨⟨e, Task.sentiment, 0⟩, ?_, rfl⟩,
    rfl, rfl, fun s => rfl, by decide, by decide⟩
  · exact List.mem_append_left _ (List.mem_map.mpr ⟨0, List.mem_range.mpr hT, rfl⟩)
  · exact List.mem_append_right _ (List.mem_map.mpr ⟨0, List.mem_range.mpr hS, rfl⟩)

/-- Witness for the amended C1 at `EPOCHS = 3` and two batches per task. -/
theorem train_loop_epoch_structure_witness :
    ((0 : ℕ) < 3 ∧ (0 : ℕ) < 2) ∧
    (∃ s ∈ epochSchedule 0 2 2, s.task = Task.topic) ∧
    (∃ s ∈ epochSchedule 0 2 2, s.task = Task.sentiment) :=
  ⟨⟨by decide, by decide⟩,
    (train_loop_epoch_structure 3 2 2 0 (by decide) (by decide) (by decide)).1,
    (train_loop_epoch_structure 3 2 2 0 (by decide) (by decide) (by decide)).2.1⟩

/-- `applyEvent` leaves the state alone on every event but `optimStep`. -/
lemma applyEvent_ne_optimStep (upd : ParamState → ParamState) (s : ParamState)
    (e : TrainEvent) (h : e ≠ TrainEvent.optimStep) : applyEvent upd s e = s := by
  cases e <;> first | rfl | exact absurd rfl h

/-- A trace without optimizer steps leaves the parameters unchanged. -/
lemma runEvents_eq_of_no_optimStep (upd : ParamState → ParamState)
    (evs : List TrainEvent) (h : ∀ e ∈ evs, e ≠ TrainEvent.optimStep) :
    ∀ s, runEvents upd s evs = s := by
  induction evs with
  | nil => intro s; rfl
  | cons e tl ih =>
    intro s
    have hstep : runEvents upd s (e :: tl) = runEvents upd (applyEvent upd s e) tl := rfl
    rw [hstep, applyEvent_ne_optimStep upd s e (h e (by simp))]
    exact ih (fun x hx => h x (by simp [hx])) s

/-- Every event `evaluate` emits is a forward pass. -/
lemma evalEvents_forward (stage : Stage) (loaderLen : Stage → Task → ℕ) :
    ∀ ev ∈ evalEvents stage loaderLen, ∃ t, ev = TrainEvent.forwardPass t := by
  intro ev hev
  unfold evalEvents at hev
  rw [List.mem_flatten] at hev
  obtain ⟨l, hl, hevl⟩ := hev
  rw [List.mem_append] at hl
  rcases hl with h | h <;>
  · rw [List.mem_map] at h
    obtain ⟨i, _, rfl⟩ := h
    simp at hevl
    exact ⟨_, hevl⟩

/-- C10: `evaluate` leaves every model parameter unchanged: its event trace
holds only forward passes under `torch.no_grad()` — no backward, no
optimizer step, no scheduler step — so running it from any parameter state
returns that state, whatever update the optimizer would apply. -/
theorem evaluate_preserves_params (upd : ParamState → ParamState)
    (s : ParamState) (stage : Stage) (loaderLen : Stage → Task → ℕ) :
    runEvents upd s (evalEvents stage loaderLen) = s ∧
    countEvent TrainEvent.backward (evalEvents stage loaderLen) = 0 ∧
    countEvent TrainEvent.optimStep (evalEvents stage loaderLen) = 0 ∧
    countEvent TrainEvent.schedStep (evalEvents stage loaderLen) = 0 := by
  have hfwd := evalEvents_forward stage loaderLen
  have hno : ∀ e ∈ evalEvents stage loaderLen, e ≠ TrainEvent.optimStep := by
    intro e he
    obtain ⟨t, rfl⟩ := hfwd e he
    simp
  refine ⟨runEvents_eq_of_no_optimStep upd _ hno s, ?_, ?_, ?_⟩ <;>
  · rw [countEvent, List.countP_eq_zero]
    intro a ha
    obtain ⟨t, rfl⟩ := hfwd a ha
    simp

/-- C8: the pooling division is unguarded: for a 0/1 attention-mask row the
divisor `mask.sum(1)` is nonzero as soon as some entry is nonzero, while for
an all-zero row the divisor `maskSum` that `meanPool` divides by is zero. -/
theorem maskSum_divisor (mask : List ℚ) (h01 : ∀ x ∈ mask, x = 0 ∨ x = 1) :
    ((∃ x ∈ mask, x ≠ 0) → maskSum mask ≠ 0) ∧
    ((∀ x ∈ mask, x = 0) → maskSum mask = 0) ∧
    ∀ hidden d, meanPool hidden mask d
        = (List.range d).map (fun j => dotCol hidden mask j / maskSum mask) := by
  refine ⟨?_, ?_, fun _ _ => rfl⟩
  · rintro ⟨x, hx, hxne⟩
    rcases h01 x hx with h0 | h1
    · exact absurd h0 hxne
    · have hnonneg : ∀ y ∈ mask, (0 : ℚ) ≤ y := by
        intro y hy
        rcases h01 y hy with h | h <;> simp [h]
      have hle := List.single_le_sum hnonneg 1 (h1 ▸ hx)
      unfold maskSum
      intro hzero
      rw [hzero] at hle
      linarith
  · intro hz
    unfold maskSum
    exact List.sum_eq_zero hz

/-- Witness for C8 at the mask `[1, 0]`. -/
theorem maskSum_divisor_witness :
    (∀ x ∈ [(1 : ℚ), 0], x = 0 ∨ x = 1) ∧ maskSum [(1 : ℚ), 0] ≠ 0 :=
  ⟨by norm_num,
    (maskSum_divisor [(1 : ℚ), 0] (by norm_num)).1 ⟨1, by norm_num, by norm_num⟩⟩

/-- The maximum of a non-empty list is one of its entries. -/
lemma maxVal_mem : ∀ l : List ℚ, l ≠ [] → maxVal l ∈ l
  | [x], _ => by simp [maxVal]
  | x :: y :: tl, _ => by
    have ih := maxVal_mem (y :: tl) (by simp)
    rcases le_total x (maxVal (y :: tl)) with h | h
    · rw [maxVal, max_eq_right h]
      exact List.mem_cons_of_mem _ ih
    · rw [maxVal, max_eq_left h]
      exact List.mem_cons_self _ _

/-- `argmaxIdx` of a non-empty list is a valid index. -/
lemma argmaxIdx_lt_length (l : List ℚ) (h : l ≠ []) : argmaxIdx l < l.length :=
  List.findIdx_lt_length_of_exists ⟨maxVal l, maxVal_mem l h, by simp⟩

/-- `maxVal` on a cons with a non-empty tail. -/
lemma maxVal_cons (x : ℚ) (l : List ℚ) (h : l ≠ []) :
    maxVal (x :: l) = max x (maxVal l) := by
  cases l with
  | nil => exact absurd rfl h
  | cons y tl => rfl

/-- The one-hot logits vector `k` zeros followed by a one has maximum 1. -/
lemma maxVal_onehot : ∀ k : ℕ, maxVal (List.replicate k (0 : ℚ) ++ [1]) = 1
  | 0 => by simp [maxVal]
  | k + 1 => by
    rw [List.replicate_succ, List.cons_append, maxVal_cons 0 _ (by simp),
      maxVal_onehot k]
    norm_num

/-- `argmaxIdx` picks the position of the one in a one-hot vector. -/
lemma argmaxIdx_onehot : ∀ k : ℕ, argmaxIdx (List.replicate k (0 : ℚ) ++ [1]) = k
  | 0 => by
    unfold argmaxIdx
    rw [maxVal_onehot 0]
    simp [List.findIdx_cons]
  | k + 1 => by
    have hk := argmaxIdx_onehot k
    unfold argmaxIdx at hk ⊢
    rw [maxVal_onehot] at hk ⊢
    rw [List.replicate_succ, List.cons_append, List.findIdx_cons]
    norm_num [hk]

/-- Indexing a name list with the argmax of every length-`n` logits vector
stays in range exactly when `n` is at most the list's length. -/
lemma argmax_inRange_iff (L n : ℕ) (hn : 0 < n) :
    (∀ logits : List ℚ, logits.length = n → argmaxIdx logits < L) ↔ n ≤ L := by
  constructor
  · intro h
    have hlen : (List.replicate (n - 1) (0 : ℚ) ++ [1]).length = n := by
      simp
      omega
    have hlt := h _ hlen
    rw [argmaxIdx_onehot] at hlt
    omega
  · intro hL logits hlen
    have hne : logits ≠ [] := by
      intro hnil
      rw [hnil] at hlen
      simp at hlen
      omega
    calc argmaxIdx logits < logits.length := argmaxIdx_lt_length _ hne
      _ = n := hlen
      _ ≤ L := hL

/-- C9: `predict_sentences` indexes the hardcoded name lists (4 topic
names, 2 sentiment names) with the argmax of logits whose length is the
class count inferred from the training labels; for every such logits
vector the indexing is in range exactly when the inferred class count is
at most the length of that task's name list. -/
theorem predict_label_indexing_range (trainLabels : List ℤ)
    (hn : 0 < inferredNumClasses trainLabels) :
    topic_names.length = 4 ∧ sent_names.length = 2 ∧
    ((∀ logits : List ℚ, logits.length = inferredNumClasses trainLabels →
        argmaxIdx logits < topic_names.length)
      ↔ inferredNumClasses trainLabels ≤ 4) ∧
    ((∀ logits : List ℚ, logits.length = inferredNumClasses trainLabels →
        argmaxIdx logits < sent_names.length)
      ↔ inferredNumClasses trainLabels ≤ 2) := by
  refine ⟨rfl, rfl, ?_, ?_⟩
  · exact argmax_inRange_iff 4 _ hn
  · exact argmax_inRange_iff 2 _ hn

/-- Witness for C9: two distinct training labels give two classes, and the
argmax of a length-2 logits vector indexes the two sentiment names. -/
theorem predict_label_indexing_range_witness :
    0 < inferredNumClasses [0, 1] ∧ argmaxIdx [(1 : ℚ), 5] < sent_names.length :=
  ⟨by decide,
    ((predict_label_indexing_range [0, 1] (by decide)).2.2.2).mpr (by decide)
      [(1 : ℚ), 5] (by decide)⟩

/-- The hidden states at the token positions where the mask is 1 (the spec
side of claim C2). -/
def selectedStates (hidden : List (List ℚ)) (mask : List ℚ) : List (List ℚ) :=
  ((hidden.zip mask).filter (fun p => decide (p.2 = 1))).map (fun p => p.1)

/-- Unweighted average of a list of vectors, coordinate by coordinate over
width `d` (the spec side of claim C2). -/
def unweightedAvg (vs : List (List ℚ)) (d : ℕ) : List ℚ :=
  (List.range d).map (fun j => (vs.map (fun v => v.getD j 0)).sum / (vs.length : ℚ))

/-- For a 0/1 mask the masked column sum equals the plain column sum over
the selected positions. -/
lemma dotCol_eq_selected (hidden : List (List ℚ)) (mask : List ℚ) (j : ℕ)
    (h01 : ∀ x ∈ mask, x = 0 ∨ x = 1) :
    dotCol hidden mask j
      = ((selectedStates hidden mask).map (fun v => v.getD j 0)).sum := by
  induction hidden generalizing mask with
  | nil => simp [dotCol, selectedStates]
  | cons v tl ih =>
    cases mask with
    | nil => simp [dotCol, selectedStates]
    | cons m ms =>
      have h01' : ∀ x ∈ ms, x = 0 ∨ x = 1 := fun x hx => h01 x (by simp [hx])
      have ihm := ih ms h01'
      rcases h01 m (by simp) with hm | hm <;> subst hm <;>
        simp [dotCol, selectedStates, List.filter_cons] at ihm ⊢ <;>
        rw [ihm] <;> ring

/-- For a 0/1 mask aligned with the hidden states, the mask sum counts the
selected positions. -/
lemma maskSum_eq_selected_count (hidden : List (List ℚ)) (mask : List ℚ)
    (hlen : hidden.length = mask.length)
    (h01 : ∀ x ∈ mask, x = 0 ∨ x = 1) :
    maskSum mask = ((selectedStates hidden mask).length : ℚ) := by
  induction hidden generalizing mask with
  | nil =>
    cases mask with
    | nil => simp [maskSum, selectedStates]
    | cons m ms => simp at hlen
  | cons v tl ih =>
    cases mask with
    | nil => simp at hlen
    | cons m ms =>
      have hlen' : tl.length = ms.length := by simpa using hlen
      have h01' : ∀ x ∈ ms, x = 0 ∨ x = 1 := fun x hx => h01 x (by simp [hx])
      have ihm := ih ms hlen' h01'
      rcases h01 m (by simp) with hm | hm <;> subst hm <;>
        simp [maskSum, selectedStates, List.filter_cons] at ihm ⊢ <;>
        rw [ihm] <;> push_cast <;> ring

/-- C2: the sentence vector the encoder computes before the projection
layer is the mean of the token states weighted by the attention mask —
`(hidden * mask).sum(1) / mask.sum(1)` — and for a 0/1 mask it equals the
unweighted average of the hidden states at the positions where the mask is
1. -/
theorem encoder_pooling_is_masked_mean (enc : SentenceEncoder)
    (input_ids : List ℤ) (attention_mask : List ℚ)
    (h01 : ∀ x ∈ attention_mask, x = 0 ∨ x = 1)
    (hlen : (enc.backbone input_ids attention_mask).length = attention_mask.length) :
    encoderPooled enc input_ids attention_mask
      = meanPool (enc.backbone input_ids attention_mask) attention_mask enc.hiddenDim ∧
    encoderForward enc input_ids attention_mask
      = reluVec (linForward enc.proj (encoderPooled enc input_ids attention_mask)) ∧
    encoderPooled enc input_ids attention_mask
      = unweightedAvg
          (selectedStates (enc.backbone input_ids attention_mask) attention_mask)
          enc.hiddenDim := by
  refine ⟨rfl, rfl, ?_⟩
  unfold encoderPooled meanPool unweightedAvg
  apply List.map_congr_left
  intro j _
  rw [dotCol_eq_selected _ _ j h01, maskSum_eq_selected_count _ _ hlen h01]

/-- Witness for C2 on a two-token, width-two batch row with mask `[1, 0]`. -/
def encEx : SentenceEncoder :=
  ⟨fun _ _ => [[1, 2], [3, 5]], 2, ⟨[[1, 0], [0, 1]], [0, 0]⟩⟩

theorem encoder_pooling_is_masked_mean_witness :
    (∀ x ∈ [(1 : ℚ), 0], x = 0 ∨ x = 1) ∧
    encoderPooled encEx [7] [1, 0]
      = unweightedAvg (selectedStates (encEx.backbone [7] [1, 0]) [1, 0])
          encEx.hiddenDim :=
  ⟨by norm_num,
    (encoder_pooling_is_masked_mean encEx [7] [1, 0] (by norm_num) (by decide)).2.2⟩

/-- Element `i` of the zip-map combination `predict_sentences` builds. -/
lemma getD_map_zip_zip {α β γ δ : Type} (F G : β → γ) (H : α × γ × γ → δ)
    (dA : α) (dB : β) (dD : δ) :
    ∀ (ss : List α) (ts : List β), ts.length = ss.length →
      ∀ i, i < ss.length →
        ((ss.zip ((ts.map F).zip (ts.map G))).map H).getD i dD
          = H (ss.getD i dA, F (ts.getD i dB), G (ts.getD i dB)) := by
  intro ss
  induction ss with
  | nil =>
    intro ts _ i hi
    simp at hi
  | cons s ss ih =>
    intro ts hlen i hi
    cases ts with
    | nil => simp at hlen
    | cons t ts' =>
      cases i with
      | zero => rfl
      | succ j =>
        have hlen' : ts'.length = ss.length := by simpa using hlen
        have hj : j < ss.length := by simpa using hi
        simpa using ih ts' hlen' j hj

/-- C3: on a non-empty sentence list with row-aligned tokenizer output,
`predict_sentences` returns one dict per input sentence, in order: entry
`i` pairs sentence `i` with the name-list entries selected by the argmax of
each head's logits for that sentence's tokens. -/
theorem predict_sentences_aligned (tok : List String → List (List ℤ × List ℚ))
    (m : TrainedModel) (sentences : List String)
    (_hne : sentences ≠ [])
    (hlen : (tok sentences).length = sentences.length) :
    (predict_sentences tok m sentences).length = sentences.length ∧
    ∀ i, i < sentences.length →
      (predict_sentences tok m sentences).getD i ⟨"", "", ""⟩
        = { sentence := sentences.getD i ""
            topic := m.topic_label_names.getD
                (argmaxIdx (mtForward m.core ((tok sentences).getD i ([], [])).1
                  ((tok sentences).getD i ([], [])).2 Task.topic)) ""
            sentiment := m.sentiment_label_names.getD
                (argmaxIdx (mtForward m.core ((tok sentences).getD i ([], [])).1
                  ((tok sentences).getD i ([], [])).2 Task.sentiment)) "" } := by
  constructor
  · simp only [predict_sentences, List.length_map, List.length_zip]
    omega
  · intro i hi
    have h := getD_map_zip_zip
      (fun t => argmaxIdx (mtForward m.core t.1 t.2 Task.topic))
      (fun t => argmaxIdx (mtForward m.core t.1 t.2 Task.sentiment))
      (fun p => ({ sentence := p.1
                   topic := m.topic_label_names.getD p.2.1 ""
                   sentiment := m.sentiment_label_names.getD p.2.2 "" } : Prediction))
      "" ([], []) (⟨"", "", ""⟩ : Prediction) sentences (tok sentences) hlen i hi
    exact h

/-- A one-sentence tokenizer stub and model for the C3 witness. -/
def tokEx : List String → List (List ℤ × List ℚ) :=
  fun ss => ss.map (fun _ => ([3], [1]))

def mtEx : MultiTaskModel := ⟨encEx, ⟨[[1, 0]], [0]⟩, ⟨[[0, 1]], [0]⟩⟩

def trainedEx : TrainedModel := ⟨mtEx, topic_names, sent_names⟩

theorem predict_sentences_aligned_witness :
    (predict_sentences tokEx trainedEx ["hi"]).length = 1 ∧
    (predict_sentences tokEx trainedEx ["hi"]).getD 0 ⟨"", "", ""⟩
      = { sentence := "hi"
          topic := trainedEx.topic_label_names.getD
              (argmaxIdx (mtForward trainedEx.core ((tokEx ["hi"]).getD 0 ([], [])).1
                ((tokEx ["hi"]).getD 0 ([], [])).2 Task.topic)) ""
          sentiment := trainedEx.sentiment_label_names.getD
              (argmaxIdx (mtForward trainedEx.core ((tokEx ["hi"]).getD 0 ([], [])).1
                ((tokEx ["hi"]).getD 0 ([], [])).2 Task.sentiment)) "" } :=
  ⟨(predict_sentences_aligned tokEx trainedEx ["hi"] (by simp) rfl).1,
    (predict_sentences_aligned tokEx trainedEx ["hi"] (by simp) rfl).2 0 (by simp)⟩

/-- Number of positions where prediction equals label (the spec side of the
accuracy of claim C5). -/
def agreeCount (y_true y_pred : List ℕ) : ℕ :=
  ((List.range y_true.length).filter
    (fun i => decide (y_true.getD i 0 = y_pred.getD i 0))).length

/-- `countPairs` on two conses. -/
lemma countPairs_cons (a b : ℕ) (t t' : List ℕ) (p : ℕ → ℕ → Bool) :
    countPairs (a :: t) (b :: t') p
      = (if p a b then 1 else 0) + countPairs t t' p := by
  unfold countPairs
  rw [List.zip_cons_cons, List.filter_cons]
  by_cases h : p a b <;> simp [h, Nat.add_comm]

/-- `agreeCount` on two conses. -/
lemma agreeCount_cons (a b : ℕ) (t t' : List ℕ) :
    agreeCount (a :: t) (b :: t') = (if a = b then 1 else 0) + agreeCount t t' := by
  unfold agreeCount
  rw [List.length_cons, List.range_succ_eq_map, List.filter_cons]
  by_cases hab : a = b <;>
    simp [hab, List.filter_map, Function.comp_def, Nat.add_comm]

/-- The accuracy numerator counts exactly the agreeing positions. -/
lemma countPairs_eq_agreeCount : ∀ y_true y_pred : List ℕ,
    y_true.length = y_pred.length →
    countPairs y_true y_pred (fun a b => decide (a = b)) = agreeCount y_true y_pred := by
  intro yt
  induction yt with
  | nil =>
    intro yp h
    simp [countPairs, agreeCount]
  | cons a t ih =>
    intro yp h
    cases yp with
    | nil => simp at h
    | cons b t' =>
      have h' : t.length = t'.length := by simpa using h
      rw [countPairs_cons, agreeCount_cons, ih t' h']
      simp

/-- With aligned lists, per-class TP + FP is the predicted count of the
class. -/
lemma tp_add_fp_eq_pred_count : ∀ y_true y_pred : List ℕ,
    y_true.length = y_pred.length → ∀ c,
    tpCount y_true y_pred c + fpCount y_true y_pred c = y_pred.count c := by
  intro yt
  induction yt with
  | nil =>
    intro yp h c
    cases yp with
    | nil => simp [tpCount, fpCount, countPairs]
    | cons b t' => simp at h
  | cons a t ih =>
    intro yp h c
    cases yp with
    | nil => simp at h
    | cons b t' =>
      have h' : t.length = t'.length := by simpa using h
      unfold tpCount fpCount
      rw [countPairs_cons, countPairs_cons, List.count_cons]
      have hrec := ih t' h' c
      unfold tpCount fpCount at hrec
      by_cases ha : a = c <;> by_cases hb : b = c <;>
        simp [ha, hb] <;> omega

/-- With aligned lists, per-class TP + FN is the true count (the support)
of the class. -/
lemma tp_add_fn_eq_true_count : ∀ y_true y_pred : List ℕ,
    y_true.length = y_pred.length → ∀ c,
    tpCount y_true y_pred c + fnCount y_true y_pred c = y_true.count c := by
  intro yt
  induction yt with
  | nil =>
    intro yp h c
    cases yp with
    | nil => simp [tpCount, fnCount, countPairs]
    | cons b t' => simp at h
  | cons a t ih =>
    intro yp h c
    cases yp with
    | nil => simp at h
    | cons b t' =>
      have h' : t.length = t'.length := by simpa using h
      unfold tpCount fnCount
      rw [countPairs_cons, countPairs_cons, List.count_cons]
      have hrec := ih t' h' c
      unfold tpCount fnCount at hrec
      by_cases ha : a = c <;> by_cases hb : b = c <;>
        simp [ha, hb] <;> omega

/-- A class with no true occurrences has no true positives and no false
negatives. -/
lemma tp_fn_zero_of_no_support : ∀ (y_true y_pred : List ℕ) (c : ℕ),
    y_true.count c = 0 →
    tpCount y_true y_pred c = 0 ∧ fnCount y_true y_pred c = 0 := by
  intro yt
  induction yt with
  | nil =>
    intro yp c h
    simp [tpCount, fnCount, countPairs]
  | cons a t ih =>
    intro yp c h
    rw [List.count_cons] at h
    have hac : ¬ (a = c) := by
      intro hc
      simp [hc] at h
    have ht : t.count c = 0 := by
      by_cases hba : a = c <;> simp [hba] at h <;> omega
    cases yp with
    | nil => simp [tpCount, fnCount, countPairs]
    | cons b t' =>
      have hrec := ih t' c ht
      unfold tpCount fnCount at hrec ⊢
      rw [countPairs_cons, countPairs_cons]
      simp [hac]
      omega

/-- `safeDiv` of a zero numerator. -/
lemma safeDiv_zero (b : ℚ) : safeDiv 0 b = 0 := by
  unfold safeDiv
  split <;> simp

/-- `safeDiv` with a nonzero denominator is plain division. -/
lemma safeDiv_of_ne (a b : ℚ) (h : b ≠ 0) : safeDiv a b = a / b := by
  unfold safeDiv
  exact if_neg h

/-- C5: `macro_metrics` returns plain accuracy (the fraction of agreeing
positions) plus precision, recall and F1 computed per class and averaged
unweighted over the observed classes: per class, precision is TP over the
predicted count, recall is TP over the support, F1 is 2·TP over support
plus predicted count, and a class with zero support contributes 0 to each
average. -/
theorem macro_metrics_spec (y_true y_pred : List ℕ)
    (hlen : y_true.length = y_pred.length) (hne : y_true ≠ []) :
    (macro_metrics y_true y_pred).acc
      = (agreeCount y_true y_pred : ℚ) / (y_true.length : ℚ) ∧
    (macro_metrics y_true y_pred).prec
      = listMean ((classesOf y_true y_pred).map (fun c =>
          safeDiv (tpCount y_true y_pred c) (y_pred.count c))) ∧
    (macro_metrics y_true y_pred).recScore
      = listMean ((classesOf y_true y_pred).map (fun c =>
          safeDiv (tpCount y_true y_pred c) (y_true.count c))) ∧
    (macro_metrics y_true y_pred).f1
      = listMean ((classesOf y_true y_pred).map (fun c =>
          safeDiv (2 * tpCount y_true y_pred c)
            (y_true.count c + y_pred.count c))) ∧
    ∀ c, y_true.count c = 0 →
      precClass y_true y_pred c = 0 ∧ recClass y_true y_pred c = 0 ∧
      f1Class y_true y_pred c = 0 := by
  have hlen0 : (y_true.length : ℚ) ≠ 0 := by
    have : y_true.length ≠ 0 := by
      intro h0
      exact hne (List.length_eq_zero.mp h0)
    exact_mod_cast this
  refine ⟨?_, ?_, ?_, ?_, ?_⟩
  · show safeDiv _ _ = _
    rw [countPairs_eq_agreeCount y_true y_pred hlen, safeDiv_of_ne _ _ hlen0]
  · show listMean _ = _
    congr 1
    apply List.map_congr_left
    intro c _
    unfold precClass
    congr 1
    have h := tp_add_fp_eq_pred_count y_true y_pred hlen c
    push_cast [← h]
    ring
  · show listMean _ = _
    congr 1
    apply List.map_congr_left
    intro c _
    unfold recClass
    congr 1
    have h := tp_add_fn_eq_true_count y_true y_pred hlen c
    push_cast [← h]
    ring
  · show listMean _ = _
    congr 1
    apply List.map_congr_left
    intro c _
    unfold f1Class
    congr 1
    have h1 := tp_add_fp_eq_pred_count y_true y_pred hlen c
    have h2 := tp_add_fn_eq_true_count y_true y_pred hlen c
    push_cast [← h1, ← h2]
    ring
  · intro c hc
    obtain ⟨htp, hfn⟩ := tp_fn_zero_of_no_support y_true y_pred c hc
    unfold precClass recClass f1Class
    rw [htp, hfn]
    norm_num [safeDiv_zero]

/-- Witness for C5 on `y_true = [0, 1, 1]`, `y_pred = [0, 1, 0]`. -/
theorem macro_metrics_spec_witness :
    ([0, 1, 1] : List ℕ).length = ([0, 1, 0] : List ℕ).length ∧
    (macro_metrics [0, 1, 1] [0, 1, 0]).acc
      = (agreeCount [0, 1, 1] [0, 1, 0] : ℚ) / (([0, 1, 1] : List ℕ).length : ℚ) ∧
    precClass [0, 1, 1] [0, 1, 0] 5 = 0 :=
  ⟨rfl, (macro_metrics_spec [0, 1, 1] [0, 1, 0] rfl (by simp)).1,
    ((macro_metrics_spec [0, 1, 1] [0, 1, 0] rfl (by simp)).2.2.2.2 5 (by decide)).1⟩

end MTL
